import Mathlib

/-!
Verification of the table-key reconciliation and transform-dispatch step of
the `pudl` notebook `notebooks/work-in-progress/transform_xbrl.ipynb`.

The notebook mutates a Python dict of raw tables in place:

    rename_dict = {
        "plants_steam_ferc1_duration": '..._402_duration',
        "plants_steam_ferc1_instant": '..._402_instant',
        "fuel_ferc1_duration": '..._fuel_statistics_402_duration'}
    for pudl_name, xbrl_name in rename_dict.items():
        ferc1_xbrl_raw_dfs[pudl_name] = ferc1_xbrl_raw_dfs.pop(xbrl_name)

and then sequentially runs two transform handlers, the second consuming the
first's output.  We embed the Python dict as an association list with unique
keys (insertion-ordered, as Python dicts are), `dict.pop` and `dict[k] = v`
as functions on it, and the rename loop as a state-threading recursion whose
error case carries the dict state at the moment the `KeyError` is raised,
since in Python the caller still holds the partially mutated dict.
-/

namespace Pudl

/-- A cell of a raw table: the tabular data has heterogeneous typed columns,
modelled as strings, integers and nulls (no floats are needed by any claim). -/
inductive Cell where
  | str (s : String)
  | int (i : Int)
  | null
deriving DecidableEq, Repr

/-- Tabular data: named columns and rows of cells.  Equality of two tables is
literal row-for-row, column-for-column identity. -/
structure Table where
  columns : List String
  rows : List (List Cell)
deriving DecidableEq, Repr

/-- A `RawTableSet`: a Python dict from table-key to tabular data, embedded as
an insertion-ordered association list whose keys are unique. -/
abbrev TableSet := List (String × Table)

/-- The keys of a table set, in insertion order. -/
def keys (d : TableSet) : List String := d.map Prod.fst

/-- Python `d.get(k, None)` (and `d.get(k)`): total lookup returning `none`
when the key is absent. -/
def dictGet : TableSet → String → Option Table
  | [], _ => none
  | (k, v) :: rest, key => if k = key then some v else dictGet rest key

/-- Python `d.pop(k)`: remove the entry at `k`, returning its value and the
remaining dict; `none` when `k` is absent (Python raises `KeyError`). -/
def popKey : TableSet → String → Option (Table × TableSet)
  | [], _ => none
  | (k, v) :: rest, key =>
    if k = key then some (v, rest)
    else
      match popKey rest key with
      | none => none
      | some (v', rest') => some (v', (k, v) :: rest')

/-- Python `d[k] = v`: overwrite the entry in place when `k` is present,
otherwise append the new entry at the end (dict insertion order). -/
def insertKey : TableSet → String → Table → TableSet
  | [], key, v => [(key, v)]
  | (k, w) :: rest, key, v =>
    if k = key then (key, v) :: rest
    else (k, w) :: insertKey rest key v

/-- The error raised by the rename loop: `d.pop(xbrl_name)` raises `KeyError`
(the spec's `KeyNotFoundError`) when the popped key is absent.  The loop body
has no other failure mode: in particular the source contains no collision
check, so no collision error constructor exists. -/
inductive RenError where
  | keyNotFound (k : String)
deriving DecidableEq, Repr

/-- A `RenameMap`: the ordered (old-key, new-key) pairs the rename loop
applies.  In the notebook `rename_dict` maps `pudl_name` to `xbrl_name` and
each iteration runs `d[pudl_name] = d.pop(xbrl_name)`, so the popped
`xbrl_name` is the old key and `pudl_name` is the new key. -/
abbrev RenameMap := List (String × String)

/-- The old-keys of a rename map, in declared order. -/
def olds (R : RenameMap) : List String := R.map Prod.fst

/-- The new-keys of a rename map, in declared order. -/
def news (R : RenameMap) : List String := R.map Prod.snd

/-- The notebook's rename loop: for each (old-key, new-key) pair in declared
order, execute `d[new] = d.pop(old)`.  Returns the error (if any) together
with the dict state visible to the caller at that point: on a `KeyError` the
mutations made by the preceding iterations remain, exactly as in Python where
the dict is mutated in place and the exception propagates mid-loop. -/
def reconcile : TableSet → RenameMap → Option RenError × TableSet
  | d, [] => (none, d)
  | d, (oldKey, newKey) :: rest =>
    match popKey d oldKey with
    | none => (some (RenError.keyNotFound oldKey), d)
    | some (v, d') => reconcile (insertKey d' newKey v) rest

/-- The notebook's `rename_dict`, as the ordered (old-key, new-key) pairs its
loop applies: the dict maps `pudl_name` to `xbrl_name` and the loop pops
`xbrl_name` (old key) and inserts at `pudl_name` (new key). -/
def rename_pairs : RenameMap :=
  [("steam_electric_generating_plant_statistics_large_plants_402_duration",
    "plants_steam_ferc1_duration"),
   ("steam_electric_generating_plant_statistics_large_plants_402_instant",
    "plants_steam_ferc1_instant"),
   ("steam_electric_generating_plant_statistics_large_plants_fuel_statistics_402_duration",
    "fuel_ferc1_duration")]

/-- The notebook's transient state around the rename cell: the two
independently extracted raw table sets.  The rename loop touches only the
XBRL set. -/
structure PipelineState where
  ferc1_dbf_raw_dfs : TableSet
  ferc1_xbrl_raw_dfs : TableSet
deriving DecidableEq, Repr

/-- The rename cell acting on the whole pipeline state: it reads and writes
`ferc1_xbrl_raw_dfs` only. -/
def reconcileState (st : PipelineState) (R : RenameMap) :
    Option RenError × PipelineState :=
  match reconcile st.ferc1_xbrl_raw_dfs R with
  | (e, x') => (e, { st with ferc1_xbrl_raw_dfs := x' })

/-- The signature of a transform handler's `execute` method as the notebook
calls it: raw DBF table, raw XBRL instant and duration variants (each may be
`none`, since the notebook looks them up with `dict.get(..., None)`), and the
already-produced dependency results, keyed by dependency name. -/
abbrev HandlerRun := Option Table → Option Table → Option Table → TableSet → Table

/-- Modelled from the spec: the dispatch errors of §4.2 and §7.  The handler
classes (`FuelFerc1`, `PlantsSteamFerc1`) live in `pudl.transform.ferc1`,
outside the supplied sources; the spec says dispatch "Fails with
`MissingDependencyError` if a handler declares a dependency that was not
supplied". -/
inductive DispatchError where
  | missingDependency (dep : String)
  | unknownTable (t : String)
deriving DecidableEq, Repr

/-- Modelled from the spec: a transform handler of the registry — its declared
dependency names and its domain transform logic (external collaborator, left
abstract). -/
structure Handler where
  deps : List String
  run : HandlerRun

/-- Lookup of a handler by canonical table name in the registry. -/
def findHandler : List (String × Handler) → String → Option Handler
  | [], _ => none
  | (k, h) :: rest, key => if k = key then some h else findHandler rest key

/-- Modelled from the spec: the fixed transform registry restricted to the two
handlers the notebook uses.  `fuel_ferc1` declares no dependency;
`plants_steam_ferc1` declares the dependency `transformed_fuel`, which the
notebook supplies from the fuel transform's output. -/
def registry (fuelRun steamRun : HandlerRun) : List (String × Handler) :=
  [("fuel_ferc1", ⟨[], fuelRun⟩),
   ("plants_steam_ferc1", ⟨["transformed_fuel"], steamRun⟩)]

/-- Modelled from the spec: `dispatch(table_name, dependency_results)` of
§4.2.  It selects the handler from the registry, fails with
`MissingDependencyError` if a declared dependency was not supplied, and
otherwise invokes the handler with the raw lookups the notebook performs:
`raw_dbf = dbf.get(t)`, `raw_xbrl_instant = xbrl.get(t + "_instant", None)`,
`raw_xbrl_duration = xbrl.get(t + "_duration", None)`. -/
def dispatch (reg : List (String × Handler)) (dbf xbrl : TableSet)
    (t : String) (depResults : TableSet) : Except DispatchError Table :=
  match findHandler reg t with
  | none => .error (.unknownTable t)
  | some h =>
    match h.deps.find? (fun dep => (dictGet depResults dep).isNone) with
    | some dep => .error (.missingDependency dep)
    | none =>
      .ok (h.run (dictGet dbf t)
                 (dictGet xbrl (t ++ "_instant"))
                 (dictGet xbrl (t ++ "_duration"))
                 depResults)

/-- One handler invocation of the notebook's transform cell: the table name,
the dependency results it was given, and the table it produced. -/
structure DispatchEvent where
  table : String
  depResults : TableSet
  result : Table
deriving DecidableEq, Repr

/-- The notebook's transform cell, as the ordered sequence of handler
invocations it performs: first `FuelFerc1("fuel_ferc1").execute(...)` with no
dependency results, then `PlantsSteamFerc1("plants_steam_ferc1").execute(...)`
with `transformed_fuel=fuel_df`, where `fuel_df` is the completed result of
the first call.  Raw inputs are looked up with `dict.get` exactly as in the
source. -/
def notebookEvents (dbf xbrl : TableSet) (fuelRun steamRun : HandlerRun) :
    List DispatchEvent :=
  let fuel_df := fuelRun (dictGet dbf "fuel_ferc1")
      (dictGet xbrl "fuel_ferc1_instant")
      (dictGet xbrl "fuel_ferc1_duration") []
  let steam_df := steamRun (dictGet dbf "plants_steam_ferc1")
      (dictGet xbrl "plants_steam_ferc1_instant")
      (dictGet xbrl "plants_steam_ferc1_duration")
      [("transformed_fuel", fuel_df)]
  [⟨"fuel_ferc1", [], fuel_df⟩,
   ⟨"plants_steam_ferc1", [("transformed_fuel", fuel_df)], steam_df⟩]

/-- A small concrete table used to instantiate universally quantified claims
on concrete inputs. -/
def sampleTable : Table :=
  { columns := ["plant_name", "capacity_mw"],
    rows := [[Cell.str "comanche", Cell.int 850]] }

/-- A second concrete table, distinct from `sampleTable`. -/
def sampleTable2 : Table :=
  { columns := ["fuel_kind"], rows := [[Cell.str "coal"], [Cell.null]] }

@[simp]
theorem keys_nil : keys [] = [] := rfl

@[simp]
theorem keys_cons (k : String) (v : Table) (d : TableSet) :
    keys ((k, v) :: d) = k :: keys d := rfl

theorem dictGet_eq_none_iff (d : TableSet) (k : String) :
    dictGet d k = none ↔ k ∉ keys d := by
  induction d with
  | nil => simp [dictGet]
  | cons p rest ih =>
    obtain ⟨k', v⟩ := p
    by_cases h : k' = k
    · simp [dictGet, h]
    · have hne : ¬k = k' := fun hk => h hk.symm
      simp [dictGet, h, ih, hne]

theorem popKey_eq_none_iff (d : TableSet) (k : String) :
    popKey d k = none ↔ k ∉ keys d := by
  induction d with
  | nil => simp [popKey]
  | cons p rest ih =>
    obtain ⟨k', v⟩ := p
    by_cases h : k' = k
    · simp [popKey, h]
    · have hne : ¬k = k' := fun hk => h hk.symm
      simp only [popKey, if_neg h, keys_cons, List.mem_cons]
      cases hp : popKey rest k with
      | none =>
        rw [hp] at ih
        simp [hne, ih.mp rfl]
      | some pr =>
        rw [hp] at ih
        have hk2 : k ∈ keys rest := by
          by_contra hc
          exact absurd (ih.mpr hc) (by simp)
        simp [hk2]

theorem popK_inv (k' : String) (w : Table) (rest : TableSet)
    (key : String) (v : Table) (d' : TableSet)
    (h : popKey ((k', w) :: rest) key = some (v, d')) :
    (k' = key ∧ w = v ∧ rest = d') ∨
    (k' ≠ key ∧ ∃ rest', popKey rest key = some (v, rest') ∧
      d' = (k', w) :: rest') := by
  by_cases hk : k' = key
  · left
    simp [popKey, hk] at h
    exact ⟨hk, h⟩
  · right
    simp only [popKey, if_neg hk] at h
    cases hp : popKey rest key with
    | none =>
      rw [hp] at h
      simp at h
    | some pr =>
      obtain ⟨v', rest'⟩ := pr
      rw [hp] at h
      simp only [Option.some_inj, Prod.mk.injEq] at h
      refine ⟨hk, rest', ?_, h.2.symm⟩
      rw [← h.1]

theorem popKey_dictGet_self (d : TableSet) (k : String) (v : Table)
    (d' : TableSet) (h : popKey d k = some (v, d')) : dictGet d k = some v := by
  induction d generalizing d' with
  | nil => simp [popKey] at h
  | cons p rest ih =>
    obtain ⟨k', w⟩ := p
    rcases popK_inv k' w rest k v d' h with ⟨hk, hw, _⟩ | ⟨hk, rest', hp, _⟩
    · simp [dictGet, hk, hw]
    · simp only [dictGet, if_neg hk]
      exact ih rest' hp

theorem popKey_dictGet_other (d : TableSet) (k : String) (v : Table)
    (d' : TableSet) (h : popKey d k = some (v, d')) (j : String) (hj : j ≠ k) :
    dictGet d' j = dictGet d j := by
  induction d generalizing d' with
  | nil => simp [popKey] at h
  | cons p rest ih =>
    obtain ⟨k', w⟩ := p
    rcases popK_inv k' w rest k v d' h with ⟨hk, _, hrest⟩ | ⟨hk, rest', hp, hd'⟩
    · have hkj : k' ≠ j := fun he => hj (he ▸ hk)
      rw [← hrest]
      simp [dictGet, hkj]
    · subst hd'
      by_cases hkj : k' = j
      · simp [dictGet, hkj]
      · simp [dictGet, hkj, ih rest' hp]

theorem mem_keys_popKey (d : TableSet) (k : String) (v : Table) (d' : TableSet)
    (hnd : (keys d).Nodup) (h : popKey d k = some (v, d')) (j : String) :
    j ∈ keys d' ↔ j ∈ keys d ∧ j ≠ k := by
  induction d generalizing d' with
  | nil => simp [popKey] at h
  | cons p rest ih =>
    obtain ⟨k', w⟩ := p
    simp only [keys_cons, List.nodup_cons] at hnd
    rcases popK_inv k' w rest k v d' h with ⟨hk, _, hrest⟩ | ⟨hk, rest', hp, hd'⟩
    · subst hk
      rw [← hrest]
      simp only [keys_cons, List.mem_cons]
      constructor
      · intro hj
        exact ⟨Or.inr hj, fun he => hnd.1 (he ▸ hj)⟩
      · rintro ⟨hj | hj, hne⟩
        · exact absurd hj hne
        · exact hj
    · subst hd'
      simp only [keys_cons, List.mem_cons, ih rest' hnd.2 hp]
      constructor
      · rintro (hj | ⟨hj, hne⟩)
        · exact ⟨Or.inl hj, fun he => hk ((hj.symm ▸ he : k' = k))⟩
        · exact ⟨Or.inr hj, hne⟩
      · rintro ⟨hj | hj, hne⟩
        · exact Or.inl hj
        · exact Or.inr ⟨hj, hne⟩

theorem popKey_nodup (d : TableSet) (k : String) (v : Table) (d' : TableSet)
    (hnd : (keys d).Nodup) (h : popKey d k = some (v, d')) :
    (keys d').Nodup := by
  induction d generalizing d' with
  | nil => simp [popKey] at h
  | cons p rest ih =>
    obtain ⟨k', w⟩ := p
    simp only [keys_cons, List.nodup_cons] at hnd
    rcases popK_inv k' w rest k v d' h with ⟨_, _, hrest⟩ | ⟨hk, rest', hp, hd'⟩
    · exact hrest ▸ hnd.2
    · subst hd'
      simp only [keys_cons, List.nodup_cons]
      refine ⟨fun hm => ?_, ih rest' hnd.2 hp⟩
      exact hnd.1 ((mem_keys_popKey rest k v rest' hnd.2 hp k').mp hm).1

theorem popKey_length (d : TableSet) (k : String) (v : Table) (d' : TableSet)
    (h : popKey d k = some (v, d')) : d.length = d'.length + 1 := by
  induction d generalizing d' with
  | nil => simp [popKey] at h
  | cons p rest ih =>
    obtain ⟨k', w⟩ := p
    rcases popK_inv k' w rest k v d' h with ⟨_, _, hrest⟩ | ⟨_, rest', hp, hd'⟩
    · simp [← hrest]
    · subst hd'
      simp [ih rest' hp]

theorem dictGet_insertKey_self (d : TableSet) (k : String) (v : Table) :
    dictGet (insertKey d k v) k = some v := by
  induction d with
  | nil => simp [insertKey, dictGet]
  | cons p rest ih =>
    obtain ⟨k', w⟩ := p
    by_cases hk : k' = k
    · simp [insertKey, hk, dictGet]
    · simp [insertKey, hk, dictGet, ih]

theorem dictGet_insertKey_other (d : TableSet) (k : String) (v : Table)
    (j : String) (hj : j ≠ k) :
    dictGet (insertKey d k v) j = dictGet d j := by
  have hne : ¬k = j := fun he => hj he.symm
  induction d with
  | nil => simp [insertKey, dictGet, hne]
  | cons p rest ih =>
    obtain ⟨k', w⟩ := p
    by_cases hk : k' = k
    · simp [insertKey, hk, dictGet, hne]
    · simp [insertKey, hk, dictGet, ih]

theorem mem_keys_insertKey (d : TableSet) (k : String) (v : Table)
    (j : String) :
    j ∈ keys (insertKey d k v) ↔ j ∈ keys d ∨ j = k := by
  induction d with
  | nil => simp [insertKey]
  | cons p rest ih =>
    obtain ⟨k', w⟩ := p
    by_cases hk : k' = k
    · have he : insertKey ((k', w) :: rest) k v = (k, v) :: rest := by
        simp [insertKey, hk]
      rw [he]
      simp only [keys_cons, List.mem_cons, hk]
      tauto
    · simp only [insertKey, if_neg hk, keys_cons, List.mem_cons, ih]
      tauto

theorem insertKey_nodup (d : TableSet) (k : String) (v : Table)
    (hnd : (keys d).Nodup) : (keys (insertKey d k v)).Nodup := by
  induction d with
  | nil => simp [insertKey]
  | cons p rest ih =>
    obtain ⟨k', w⟩ := p
    simp only [keys_cons, List.nodup_cons] at hnd
    by_cases hk : k' = k
    · have he : insertKey ((k', w) :: rest) k v = (k, v) :: rest := by
        simp [insertKey, hk]
      rw [he]
      simp only [keys_cons, List.nodup_cons]
      exact ⟨hk ▸ hnd.1, hnd.2⟩
    · simp only [insertKey, if_neg hk, keys_cons, List.nodup_cons]
      refine ⟨fun hm => ?_, ih hnd.2⟩
      rcases (mem_keys_insertKey rest k v k').mp hm with hm' | hm'
      · exact hnd.1 hm'
      · exact hk hm'

theorem insertKey_length_of_not_mem (d : TableSet) (k : String) (v : Table)
    (hk : k ∉ keys d) : (insertKey d k v).length = d.length + 1 := by
  induction d with
  | nil => simp [insertKey]
  | cons p rest ih =>
    obtain ⟨k', w⟩ := p
    simp only [keys_cons, List.mem_cons] at hk
    push_neg at hk
    have hne : k' ≠ k := fun he => hk.1 he.symm
    simp only [insertKey, if_neg hne, List.length_cons]
    rw [ih hk.2]

theorem reconcile_frame (d : TableSet) (R : RenameMap) (k : String) :
    k ∉ olds R → k ∉ news R →
    dictGet (reconcile d R).2 k = dictGet d k := by
  induction R generalizing d with
  | nil =>
    intro _ _
    simp [reconcile]
  | cons p rest ih =>
    obtain ⟨o, n⟩ := p
    intro h1 h2
    simp only [olds, news, List.map_cons, List.mem_cons] at h1 h2
    push_neg at h1 h2
    cases hp : popKey d o with
    | none => simp [reconcile, hp]
    | some pr =>
      obtain ⟨v, d'⟩ := pr
      simp only [reconcile, hp]
      rw [ih (insertKey d' n v) h1.2 h2.2,
        dictGet_insertKey_other d' n v k h2.1,
        popKey_dictGet_other d o v d' hp k h1.1]

/-- C6: for every RawTableSet `S`, applying an empty RenameMap with
`reconcile` is a no-op: no error is raised and the output set equals the
input set `S` (identity element of the rename operation). -/
theorem C6_empty_rename_is_noop (S : TableSet) : reconcile S [] = (none, S) :=
  rfl

/-- C5: for all tables `T1` and `T2`, applying the two-pair rename map of the
spec's scenario (old-key `plants_steam_ferc1_duration` to the long
`..._402_duration` key, old-key `fuel_ferc1_duration` to the long
`..._fuel_statistics_402_duration` key) to the RawTableSet holding `T1` and
`T2` at the two old-keys succeeds and yields exactly the set with `T1` and
`T2` at the two new-keys. -/
theorem C5_rename_scenario (T1 T2 : Table) :
    reconcile
      [("plants_steam_ferc1_duration", T1), ("fuel_ferc1_duration", T2)]
      [("plants_steam_ferc1_duration",
        "steam_electric_generating_plant_statistics_large_plants_402_duration"),
       ("fuel_ferc1_duration",
        "steam_electric_generating_plant_statistics_large_plants_fuel_statistics_402_duration")] =
    (none,
     [("steam_electric_generating_plant_statistics_large_plants_402_duration",
       T1),
      ("steam_electric_generating_plant_statistics_large_plants_fuel_statistics_402_duration",
       T2)]) := by
  rfl

/-- C7: `reconcile(S, R)` mutates only the entries of `S` at keys named as
old-keys or new-keys of `R`: the value at every key appearing in no pair of
`R` is unchanged (also on the partially mutated state an error leaves), and
no state outside the passed-in set — in particular the legacy/DBF
RawTableSet of the pipeline state — is modified. -/
theorem C7_reconcile_mutates_only_named_keys
    (S : TableSet) (R : RenameMap) (k : String) (st : PipelineState) :
    (k ∉ olds R → k ∉ news R →
      dictGet (reconcile S R).2 k = dictGet S k) ∧
    (reconcileState st R).2.ferc1_dbf_raw_dfs = st.ferc1_dbf_raw_dfs := by
  refine ⟨reconcile_frame S R k, ?_⟩
  simp [reconcileState]

/-- Witness for C7 at a concrete input: the untouched key `other_table`
keeps its value across the notebook's rename, and the DBF set is untouched. -/
theorem C7_witness :
    "other_table" ∉ olds [("old_key", "new_key")] ∧
    "other_table" ∉ news [("old_key", "new_key")] ∧
    dictGet (reconcile [("old_key", sampleTable), ("other_table", sampleTable2)]
        [("old_key", "new_key")]).2 "other_table" =
      dictGet [("old_key", sampleTable), ("other_table", sampleTable2)]
        "other_table" ∧
    (reconcileState
        ⟨[("dbf_table", sampleTable)], [("old_key", sampleTable2)]⟩
        [("old_key", "new_key")]).2.ferc1_dbf_raw_dfs =
      [("dbf_table", sampleTable)] := by
  have h := C7_reconcile_mutates_only_named_keys
    [("old_key", sampleTable), ("other_table", sampleTable2)]
    [("old_key", "new_key")] "other_table"
    ⟨[("dbf_table", sampleTable)], [("old_key", sampleTable2)]⟩
  exact ⟨by decide, by decide, h.1 (by decide) (by decide), h.2⟩

/-- C2 counterexample: with `S = {"a": sampleTable}` and
`R = [("a","b"), ("c","d")]`, the second pair's old-key `c` is absent when
processed, so `reconcile` fails with `KeyNotFoundError("c")` — but the
caller-visible set is NOT the unchanged `S`: the first pair's rename has
already been applied (entry moved from `a` to `b`), so the rename is not
all-or-nothing. -/
theorem C2_counterexample :
    (reconcile [("a", sampleTable)] [("a", "b"), ("c", "d")]).1 =
      some (RenError.keyNotFound "c") ∧
    (reconcile [("a", sampleTable)] [("a", "b"), ("c", "d")]).2 ≠
      [("a", sampleTable)] ∧
    dictGet (reconcile [("a", sampleTable)] [("a", "b"), ("c", "d")]).2 "a" =
      none ∧
    dictGet [("a", sampleTable)] "a" = some sampleTable := by
  decide

/-- C2 amended: when a pair's old-key is absent at the time that pair is
processed, `reconcile` fails with `KeyNotFoundError` naming that key, but the
rename is not atomic: the caller-visible set is the input with all preceding
pairs' renames applied (so `S` is observably unchanged only when the failing
pair is the first). -/
theorem C2_amended_fails_with_partial_mutation
    (d : TableSet) (pre : RenameMap) (o n : String) (post : RenameMap)
    (hpre : (reconcile d pre).1 = none)
    (habs : popKey (reconcile d pre).2 o = none) :
    reconcile d (pre ++ (o, n) :: post) =
      (some (RenError.keyNotFound o), (reconcile d pre).2) := by
  induction pre generalizing d with
  | nil =>
    have habs' : popKey d o = none := habs
    simp [reconcile, habs']
  | cons p rest ih =>
    obtain ⟨o', n'⟩ := p
    cases hp : popKey d o' with
    | none => simp [reconcile, hp] at hpre
    | some pr =>
      obtain ⟨v, d'⟩ := pr
      simp only [reconcile, hp, List.cons_append] at hpre habs ⊢
      exact ih (insertKey d' n' v) hpre habs

/-- Witness for C2's amended theorem at a concrete input: after the first
pair `("a","b")` is applied, the second pair's old-key `c` is absent, the run
fails with `KeyNotFoundError("c")`, and the visible set is the partially
renamed `{"b": sampleTable}`. -/
theorem C2_amended_witness :
    (reconcile [("a", sampleTable)] [("a", "b")]).1 = none ∧
    popKey (reconcile [("a", sampleTable)] [("a", "b")]).2 "c" = none ∧
    reconcile [("a", sampleTable)] ([("a", "b")] ++ ("c", "d") :: []) =
      (some (RenError.keyNotFound "c"),
       (reconcile [("a", sampleTable)] [("a", "b")]).2) :=
  ⟨by decide, by decide,
   C2_amended_fails_with_partial_mutation [("a", sampleTable)] [("a", "b")]
     "c" "d" [] (by decide) (by decide)⟩

/-- C3 counterexample: with `S = {"a": sampleTable, "b": sampleTable2}` and
the single pair `("a","b")` whose new-key `b` is already present,
`reconcile` does not fail at all (no `KeyCollisionError` exists in the code):
it succeeds and silently replaces the existing entry at `b` with the data
popped from `a`. -/
theorem C3_counterexample :
    reconcile [("a", sampleTable), ("b", sampleTable2)] [("a", "b")] =
      (none, [("b", sampleTable)]) := by
  decide

/-- C3 amended: when a pair's new-key is already present at the time that
pair is applied, `reconcile` raises no error — the rename loop has no
collision check — and the existing entry at the new-key is silently replaced
by the data removed from the old-key. -/
theorem C3_amended_silently_replaces
    (d d' : TableSet) (o n : String) (v w : Table)
    (hpop : popKey d o = some (v, d'))
    (hpresent : dictGet d' n = some w) :
    (reconcile d [(o, n)]).1 = none ∧
    dictGet (reconcile d [(o, n)]).2 n = some v := by
  simp [reconcile, hpop, dictGet_insertKey_self]

/-- Witness for C3's amended theorem at a concrete input: renaming `a` onto
the already-present key `b` succeeds and overwrites `b`'s old value. -/
theorem C3_amended_witness :
    popKey [("a", sampleTable), ("b", sampleTable2)] "a" =
      some (sampleTable, [("b", sampleTable2)]) ∧
    dictGet [("b", sampleTable2)] "b" = some sampleTable2 ∧
    ((reconcile [("a", sampleTable), ("b", sampleTable2)] [("a", "b")]).1 =
      none ∧
     dictGet (reconcile [("a", sampleTable), ("b", sampleTable2)]
        [("a", "b")]).2 "b" = some sampleTable) :=
  ⟨by decide, by decide,
   C3_amended_silently_replaces [("a", sampleTable), ("b", sampleTable2)]
     [("b", sampleTable2)] "a" "b" sampleTable sampleTable2
     (by decide) (by decide)⟩

/-- C1: for every RawTableSet `S` (a dict, so with duplicate-free keys) and
every non-overlapping RenameMap `R` (no key occurs more than once among `R`'s
old-keys and new-keys) whose old-keys are all present in `S`, `reconcile`
applies the pairs in declared order and succeeds, and the resulting set
contains exactly the expected keys: each new-key holds data identical to the
pre-rename data at the corresponding old-key, every old-key is absent, and a
key is present in the result exactly when it is a new-key or a key of `S`
named by no pair. -/
theorem C1_reconcile_functional_correctness (S : TableSet) (R : RenameMap) :
    (keys S).Nodup → (olds R ++ news R).Nodup →
    (∀ o ∈ olds R, o ∈ keys S) →
    (reconcile S R).1 = none ∧
    (∀ p ∈ R, dictGet (reconcile S R).2 p.2 = dictGet S p.1 ∧
      dictGet (reconcile S R).2 p.1 = none) ∧
    (∀ k, k ∈ keys (reconcile S R).2 ↔
      (k ∈ keys S ∧ k ∉ olds R) ∨ k ∈ news R) := by
  induction R generalizing S with
  | nil =>
    intro _ _ _
    refine ⟨rfl, fun p hp => absurd hp (List.not_mem_nil p), fun k => ?_⟩
    simp [reconcile, olds, news]
  | cons p rest ih =>
    obtain ⟨o, n⟩ := p
    intro hS hR hold
    simp only [olds, news, List.map_cons, List.cons_append] at hR
    rw [List.nodup_cons, List.nodup_middle, List.nodup_cons] at hR
    obtain ⟨ho, hn, hrest⟩ := hR
    simp only [List.mem_append, List.mem_cons] at ho hn
    push_neg at ho hn
    obtain ⟨ho1, ho2, ho3⟩ := ho
    obtain ⟨hn1, hn2⟩ := hn
    have hoS : o ∈ keys S := hold o (by simp [olds])
    obtain ⟨⟨v, S'⟩, hp⟩ : ∃ pr, popKey S o = some pr := by
      cases hp : popKey S o with
      | none => exact absurd ((popKey_eq_none_iff S o).mp hp) (by simp [hoS])
      | some pr => exact ⟨pr, rfl⟩
    have hgetS : dictGet S o = some v := popKey_dictGet_self S o v S' hp
    have hS'nd : (keys S').Nodup := popKey_nodup S o v S' hS hp
    have hmemS' : ∀ j, j ∈ keys S' ↔ j ∈ keys S ∧ j ≠ o :=
      mem_keys_popKey S o v S' hS hp
    have hS1nd : (keys (insertKey S' n v)).Nodup := insertKey_nodup S' n v hS'nd
    have hmemS1 : ∀ j, j ∈ keys (insertKey S' n v) ↔
        (j ∈ keys S ∧ j ≠ o) ∨ j = n := by
      intro j
      rw [mem_keys_insertKey, hmemS' j]
    have holdS1 : ∀ o' ∈ olds rest, o' ∈ keys (insertKey S' n v) := by
      intro o' ho'
      rcases eq_or_ne o' n with he | hne
      · exact (hmemS1 o').mpr (Or.inr he)
      · have hmS : o' ∈ keys S := hold o' (by
        simp only [olds, List.map_cons, List.mem_cons]
        exact Or.inr ho')
        have hne2 : o' ≠ o := fun he2 => ho1 (he2 ▸ ho')
        exact (hmemS1 o').mpr (Or.inl ⟨hmS, hne2⟩)
    obtain ⟨ih1, ih2, ih3⟩ := ih (insertKey S' n v) hS1nd hrest holdS1
    have hget1 : ∀ j, j ≠ n → j ≠ o →
        dictGet (insertKey S' n v) j = dictGet S j := by
      intro j hjn hjo
      rw [dictGet_insertKey_other S' n v j hjn,
        popKey_dictGet_other S o v S' hp j hjo]
    refine ⟨?_, ?_, ?_⟩
    · simp only [reconcile, hp]
      exact ih1
    · intro q hq
      rcases List.mem_cons.mp hq with he | hmem
      · subst he
        constructor
        · simp only [reconcile, hp]
          rw [reconcile_frame (insertKey S' n v) rest n hn1 hn2,
            dictGet_insertKey_self S' n v, hgetS]
        · simp only [reconcile, hp]
          rw [reconcile_frame (insertKey S' n v) rest o ho1 ho3,
            dictGet_insertKey_other S' n v o ho2,
            (dictGet_eq_none_iff S' o).mpr (by simp [hmemS' o])]
      · have hq1 : q.1 ∈ olds rest := List.mem_map_of_mem Prod.fst hmem
        have hq1n : q.1 ≠ n := fun he => hn1 (he ▸ hq1)
        have hq1o : q.1 ≠ o := fun he => ho1 (he ▸ hq1)
        obtain ⟨ihq1, ihq2⟩ := ih2 q hmem
        refine ⟨?_, ?_⟩
        · simp only [reconcile, hp]
          rw [ihq1, hget1 q.1 hq1n hq1o]
        · simp only [reconcile, hp]
          exact ihq2
    · intro k
      simp only [reconcile, hp]
      rw [ih3 k, hmemS1 k]
      simp only [olds, news, List.map_cons, List.mem_cons]
      constructor
      · rintro (⟨⟨hkS, hko⟩ | hkn, hknotold⟩ | hknews)
        · exact Or.inl ⟨hkS, by push_neg; exact ⟨hko, hknotold⟩⟩
        · exact Or.inr (Or.inl hkn)
        · exact Or.inr (Or.inr hknews)
      · rintro (⟨hkS, hknot⟩ | hkn | hknews)
        · push_neg at hknot
          exact Or.inl ⟨Or.inl ⟨hkS, hknot.1⟩, hknot.2⟩
        · exact Or.inl ⟨Or.inr hkn, hkn ▸ hn1⟩
        · exact Or.inr hknews

/-- Witness for C1 at a concrete input: renaming the single key `x` of a
one-entry set to `y`. -/
theorem C1_witness :
    (keys [("x", sampleTable)]).Nodup ∧
    (olds [("x", "y")] ++ news [("x", "y")]).Nodup ∧
    (∀ o ∈ olds [("x", "y")], o ∈ keys [("x", sampleTable)]) ∧
    ((reconcile [("x", sampleTable)] [("x", "y")]).1 = none ∧
     (∀ p ∈ [("x", "y")],
        dictGet (reconcile [("x", sampleTable)] [("x", "y")]).2 p.2 =
          dictGet [("x", sampleTable)] p.1 ∧
        dictGet (reconcile [("x", sampleTable)] [("x", "y")]).2 p.1 = none) ∧
     (∀ k, k ∈ keys (reconcile [("x", sampleTable)] [("x", "y")]).2 ↔
        (k ∈ keys [("x", sampleTable)] ∧ k ∉ olds [("x", "y")]) ∨
          k ∈ news [("x", "y")])) :=
  ⟨by decide, by decide, by decide,
   C1_reconcile_functional_correctness [("x", sampleTable)] [("x", "y")]
     (by decide) (by decide) (by decide)⟩

/-- C10: for every RawTableSet `S` (duplicate-free keys) and every RenameMap
`R` whose old-keys are all present in `S`, whose new-keys are all absent from
`S`, and in which no key is repeated, `reconcile` succeeds and preserves the
number of entries: the cardinality after the rename equals the cardinality
before. -/
theorem C10_reconcile_preserves_cardinality (S : TableSet) (R : RenameMap) :
    (keys S).Nodup → (olds R ++ news R).Nodup →
    (∀ o ∈ olds R, o ∈ keys S) → (∀ n ∈ news R, n ∉ keys S) →
    (reconcile S R).1 = none ∧ (reconcile S R).2.length = S.length := by
  induction R generalizing S with
  | nil =>
    intro _ _ _ _
    exact ⟨rfl, rfl⟩
  | cons p rest ih =>
    obtain ⟨o, n⟩ := p
    intro hS hR hold hnew
    simp only [olds, news, List.map_cons, List.cons_append] at hR
    rw [List.nodup_cons, List.nodup_middle, List.nodup_cons] at hR
    obtain ⟨ho, hn, hrest⟩ := hR
    simp only [List.mem_append, List.mem_cons] at ho hn
    push_neg at ho hn
    obtain ⟨ho1, ho2, ho3⟩ := ho
    obtain ⟨hn1, hn2⟩ := hn
    have hoS : o ∈ keys S := hold o (by simp [olds])
    obtain ⟨⟨v, S'⟩, hp⟩ : ∃ pr, popKey S o = some pr := by
      cases hp : popKey S o with
      | none => exact absurd ((popKey_eq_none_iff S o).mp hp) (by simp [hoS])
      | some pr => exact ⟨pr, rfl⟩
    have hS'nd : (keys S').Nodup := popKey_nodup S o v S' hS hp
    have hmemS' : ∀ j, j ∈ keys S' ↔ j ∈ keys S ∧ j ≠ o :=
      mem_keys_popKey S o v S' hS hp
    have hS1nd : (keys (insertKey S' n v)).Nodup := insertKey_nodup S' n v hS'nd
    have hmemS1 : ∀ j, j ∈ keys (insertKey S' n v) ↔
        (j ∈ keys S ∧ j ≠ o) ∨ j = n := by
      intro j
      rw [mem_keys_insertKey, hmemS' j]
    have holdS1 : ∀ o' ∈ olds rest, o' ∈ keys (insertKey S' n v) := by
      intro o' ho'
      have hmS : o' ∈ keys S := hold o' (by
        simp only [olds, List.map_cons, List.mem_cons]
        exact Or.inr ho')
      have hne2 : o' ≠ o := fun he2 => ho1 (he2 ▸ ho')
      exact (hmemS1 o').mpr (Or.inl ⟨hmS, hne2⟩)
    have hnewS1 : ∀ n' ∈ news rest, n' ∉ keys (insertKey S' n v) := by
      intro n' hn' hmem
      rcases (hmemS1 n').mp hmem with ⟨hmS, _⟩ | he
      · exact hnew n' (by
          simp only [news, List.map_cons, List.mem_cons]
          exact Or.inr hn') hmS
      · exact hn2 (he ▸ hn')
    have hnS' : n ∉ keys S' := by
      intro hmem
      exact hnew n (by simp [news]) ((hmemS' n).mp hmem).1
    have hlen1 : (insertKey S' n v).length = S.length := by
      rw [insertKey_length_of_not_mem S' n v hnS']
      have hl := popKey_length S o v S' hp
      omega
    obtain ⟨ih1, ih2⟩ := ih (insertKey S' n v) hS1nd hrest holdS1 hnewS1
    constructor
    · simp only [reconcile, hp]
      exact ih1
    · simp only [reconcile, hp]
      rw [ih2, hlen1]

/-- Witness for C10 at a concrete input: renaming both keys of a two-entry
set preserves its cardinality. -/
theorem C10_witness :
    (keys [("x", sampleTable), ("y", sampleTable2)]).Nodup ∧
    (olds [("x", "u"), ("y", "w")] ++ news [("x", "u"), ("y", "w")]).Nodup ∧
    (∀ o ∈ olds [("x", "u"), ("y", "w")],
      o ∈ keys [("x", sampleTable), ("y", sampleTable2)]) ∧
    (∀ n ∈ news [("x", "u"), ("y", "w")],
      n ∉ keys [("x", sampleTable), ("y", sampleTable2)]) ∧
    ((reconcile [("x", sampleTable), ("y", sampleTable2)]
        [("x", "u"), ("y", "w")]).1 = none ∧
     (reconcile [("x", sampleTable), ("y", sampleTable2)]
        [("x", "u"), ("y", "w")]).2.length =
       ([("x", sampleTable), ("y", sampleTable2)] : TableSet).length) :=
  ⟨by decide, by decide, by decide, by decide,
   C10_reconcile_preserves_cardinality
     [("x", sampleTable), ("y", sampleTable2)] [("x", "u"), ("y", "w")]
     (by decide) (by decide) (by decide) (by decide)⟩

/-- C4: dispatching the transform for `fuel_ferc1` with both instant and
duration raw inputs present and no dependency results succeeds and returns a
table; dispatching `plants_steam_ferc1` without a `transformed_fuel`
dependency result fails with `MissingDependencyError`; and in general every
dispatch whose handler declares a dependency that is not supplied fails with
`MissingDependencyError` (naming some missing declared dependency). -/
theorem C4_dispatch_missing_dependency
    (fuelRun steamRun : HandlerRun) (dbf xbrl depRes : TableSet)
    (ti td : Table)
    (hi : dictGet xbrl "fuel_ferc1_instant" = some ti)
    (hd : dictGet xbrl "fuel_ferc1_duration" = some td)
    (hmiss : dictGet depRes "transformed_fuel" = none) :
    (∃ t, dispatch (registry fuelRun steamRun) dbf xbrl "fuel_ferc1" [] =
      .ok t) ∧
    dispatch (registry fuelRun steamRun) dbf xbrl "plants_steam_ferc1"
        depRes = .error (.missingDependency "transformed_fuel") ∧
    (∀ (reg : List (String × Handler)) (dbf' xbrl' depRes' : TableSet)
        (t dep : String) (h : Handler),
      findHandler reg t = some h → dep ∈ h.deps →
      dictGet depRes' dep = none →
      ∃ dep', dep' ∈ h.deps ∧ dictGet depRes' dep' = none ∧
        dispatch reg dbf' xbrl' t depRes' =
          .error (.missingDependency dep')) := by
  refine ⟨⟨_, rfl⟩, ?_, ?_⟩
  · simp [dispatch, registry, findHandler, hmiss]
  · intro reg dbf' xbrl' depRes' t dep h hfh hdep hnone
    have hex : ∃ x, x ∈ h.deps ∧ ((dictGet depRes' x).isNone = true) :=
      ⟨dep, hdep, by simp [hnone]⟩
    have hsome : (h.deps.find? (fun d => (dictGet depRes' d).isNone)).isSome :=
      List.find?_isSome.mpr hex
    obtain ⟨dep', hfind⟩ := Option.isSome_iff_exists.mp hsome
    refine ⟨dep', List.mem_of_find?_eq_some hfind, ?_, ?_⟩
    · have := List.find?_some hfind
      simpa [Option.isNone_iff_eq_none] using this
    · simp [dispatch, hfh, hfind]

/-- Witness for C4 at concrete inputs: a fuel dispatch with both raw XBRL
variants present succeeds, and a steam dispatch with an empty
dependency-results mapping fails naming `transformed_fuel`. -/
theorem C4_witness :
    dictGet [("fuel_ferc1_instant", sampleTable),
             ("fuel_ferc1_duration", sampleTable2)] "fuel_ferc1_instant" =
      some sampleTable ∧
    dictGet [("fuel_ferc1_instant", sampleTable),
             ("fuel_ferc1_duration", sampleTable2)] "fuel_ferc1_duration" =
      some sampleTable2 ∧
    dictGet [] "transformed_fuel" = none ∧
    ((∃ t, dispatch
        (registry (fun _ _ _ _ => sampleTable) (fun _ _ _ _ => sampleTable2))
        [] [("fuel_ferc1_instant", sampleTable),
            ("fuel_ferc1_duration", sampleTable2)] "fuel_ferc1" [] =
          .ok t) ∧
     dispatch
        (registry (fun _ _ _ _ => sampleTable) (fun _ _ _ _ => sampleTable2))
        [] [("fuel_ferc1_instant", sampleTable),
            ("fuel_ferc1_duration", sampleTable2)] "plants_steam_ferc1" [] =
       .error (.missingDependency "transformed_fuel") ∧
     (∀ (reg : List (String × Handler)) (dbf' xbrl' depRes' : TableSet)
         (t dep : String) (h : Handler),
       findHandler reg t = some h → dep ∈ h.deps →
       dictGet depRes' dep = none →
       ∃ dep', dep' ∈ h.deps ∧ dictGet depRes' dep' = none ∧
         dispatch reg dbf' xbrl' t depRes' =
           .error (.missingDependency dep'))) :=
  ⟨by decide, by decide, by decide,
   C4_dispatch_missing_dependency
     (fun _ _ _ _ => sampleTable) (fun _ _ _ _ => sampleTable2)
     [] [("fuel_ferc1_instant", sampleTable),
         ("fuel_ferc1_duration", sampleTable2)] []
     sampleTable sampleTable2 (by decide) (by decide) (by decide)⟩

/-- C8: in the notebook's transform cell, the fuel-statistics transform
(`fuel_ferc1`) is invoked and completes, producing its result, strictly
before the plant-statistics transform (`plants_steam_ferc1`) is invoked, and
the latter consumes exactly that completed result as its `transformed_fuel`
dependency: the invocation trace is the two events in that order. -/
theorem C8_fuel_transformed_before_steam
    (dbf xbrl : TableSet) (fuelRun steamRun : HandlerRun) :
    ∃ e0 e1, notebookEvents dbf xbrl fuelRun steamRun = [e0, e1] ∧
      e0.table = "fuel_ferc1" ∧
      e1.table = "plants_steam_ferc1" ∧
      dictGet e1.depResults "transformed_fuel" = some e0.result := by
  refine ⟨_, _, rfl, rfl, rfl, ?_⟩
  simp [notebookEvents, dictGet]

/-- C9: the raw-variant lookups are total.  If the instant variant key
`<table>_instant` (or the duration variant key `<table>_duration`) is absent
from the standardized RawTableSet, `dict.get` returns `None` rather than
raising, and — provided the handler's declared dependencies are supplied —
dispatch succeeds, invoking the handler with `none` as that raw input. -/
theorem C9_absent_variant_lookup_total
    (reg : List (String × Handler)) (dbf xbrl depRes : TableSet)
    (t : String) (h : Handler)
    (hfh : findHandler reg t = some h)
    (hdeps : h.deps.find? (fun dep => (dictGet depRes dep).isNone) = none) :
    ((t ++ "_instant") ∉ keys xbrl →
      dictGet xbrl (t ++ "_instant") = none ∧
      dispatch reg dbf xbrl t depRes =
        .ok (h.run (dictGet dbf t) none
          (dictGet xbrl (t ++ "_duration")) depRes)) ∧
    ((t ++ "_duration") ∉ keys xbrl →
      dictGet xbrl (t ++ "_duration") = none ∧
      dispatch reg dbf xbrl t depRes =
        .ok (h.run (dictGet dbf t) (dictGet xbrl (t ++ "_instant"))
          none depRes)) := by
  constructor
  · intro habs
    have h1 : dictGet xbrl (t ++ "_instant") = none :=
      (dictGet_eq_none_iff xbrl (t ++ "_instant")).mpr habs
    exact ⟨h1, by simp [dispatch, hfh, hdeps, h1]⟩
  · intro habs
    have h1 : dictGet xbrl (t ++ "_duration") = none :=
      (dictGet_eq_none_iff xbrl (t ++ "_duration")).mpr habs
    exact ⟨h1, by simp [dispatch, hfh, hdeps, h1]⟩

/-- Witness for C9 at concrete inputs: dispatching a table whose instant and
duration variants are both absent from the XBRL set invokes the handler with
`none` raw inputs and raises nothing. -/
theorem C9_witness :
    findHandler [("tbl", ⟨[], fun _ _ _ _ => sampleTable⟩)] "tbl" =
      some ⟨[], fun _ _ _ _ => sampleTable⟩ ∧
    (Handler.deps ⟨[], fun _ _ _ _ => sampleTable⟩).find?
      (fun dep => (dictGet [] dep).isNone) = none ∧
    (("tbl" ++ "_instant") ∉ keys [("other", sampleTable2)] →
      dictGet [("other", sampleTable2)] ("tbl" ++ "_instant") = none ∧
      dispatch [("tbl", ⟨[], fun _ _ _ _ => sampleTable⟩)] []
          [("other", sampleTable2)] "tbl" [] =
        .ok ((Handler.run ⟨[], fun _ _ _ _ => sampleTable⟩)
          (dictGet [] "tbl") none
          (dictGet [("other", sampleTable2)] ("tbl" ++ "_duration")) [])) ∧
    (("tbl" ++ "_duration") ∉ keys [("other", sampleTable2)] →
      dictGet [("other", sampleTable2)] ("tbl" ++ "_duration") = none ∧
      dispatch [("tbl", ⟨[], fun _ _ _ _ => sampleTable⟩)] []
          [("other", sampleTable2)] "tbl" [] =
        .ok ((Handler.run ⟨[], fun _ _ _ _ => sampleTable⟩)
          (dictGet [] "tbl") (dictGet [("other", sampleTable2)]
            ("tbl" ++ "_instant")) none [])) := by
  have h := C9_absent_variant_lookup_total
    [("tbl", ⟨[], fun _ _ _ _ => sampleTable⟩)] [] [("other", sampleTable2)]
    [] "tbl" ⟨[], fun _ _ _ _ => sampleTable⟩ rfl rfl
  exact ⟨rfl, rfl, h.1, h.2⟩

end Pudl
